import Mathlib

/-!
Verification of the Fast-Search-Rust search engine (src/lib.rs, src/main.rs).

The embedding is byte-level: file contents, queries, file names and paths are
lists of byte values (`List Nat`).  The Aho-Corasick automaton of the
`aho_corasick` crate is modelled by its documented semantics for a single
pattern: `find_iter` yields the non-overlapping occurrences found by a
leftmost scan that resumes after the end of each reported match, and
`ascii_case_insensitive` compares bytes after ASCII lower-casing.  The
parallel directory walker of the `ignore` crate is modelled as the linearised
sequence of callback invocations it performs, one per visited entry (an
`Option Entry`, `none` standing for an `Err` result handed to the callback);
the shared atomic counter and the cancellation flag become explicit state of
the sequential fold.  `String::from_utf8_lossy` is a total decode of the line
bytes; events carry the byte content of the line, which determines the
decoded text.
-/

namespace FastSearch

/-- Byte strings: file contents, queries, names, paths. -/
abbrev Bytes := List Nat

/-- ASCII lower-casing of one byte, as performed by the
`ascii_case_insensitive` option of the matcher builder. -/
def asciiLower (b : Nat) : Nat := if 65 ≤ b ∧ b ≤ 90 then b + 32 else b

/-- A compiled single-pattern matcher (src/lib.rs lines 61-74): the pattern
bytes and the case-insensitivity flag passed to the builder. -/
structure Matcher where
  pattern : Bytes
  ignoreCase : Bool
  deriving DecidableEq

/-- Canonical form of a byte string under the configured case sensitivity. -/
def canon (ci : Bool) (bs : Bytes) : Bytes := if ci then bs.map asciiLower else bs

/-- The pattern matches the haystack `s` at position `p`. -/
def Matcher.matchesAt (m : Matcher) (s : Bytes) (p : Nat) : Bool :=
  decide (p + m.pattern.length ≤ s.length) &&
    (canon m.ignoreCase ((s.drop p).take m.pattern.length) == canon m.ignoreCase m.pattern)

/-- Model of `AhoCorasick::is_match`: some position of the haystack matches. -/
def Matcher.isMatch (m : Matcher) (s : Bytes) : Bool :=
  (List.range (s.length + 1)).any (fun p => m.matchesAt s p)

/-- One step of `AhoCorasick::find_iter`: scan for the next match from
position `p`; after a match at `p` resume at `p + max |pattern| 1`
(non-overlapping iteration; the `max` keeps an empty pattern advancing).
`fuel` bounds the recursion and is instantiated large enough in `findIter`. -/
def findFrom (m : Matcher) (s : Bytes) : Nat → Nat → List Nat
  | _, 0 => []
  | p, fuel + 1 =>
    if p + m.pattern.length ≤ s.length then
      if m.matchesAt s p then
        p :: findFrom m s (p + max m.pattern.length 1) fuel
      else
        findFrom m s (p + 1) fuel
    else []

/-- Model of `AhoCorasick::find_iter` over the whole haystack: the start positions of
the non-overlapping matches, in ascending order. -/
def findIter (m : Matcher) (s : Bytes) : List Nat := findFrom m s 0 (s.length + 1)

/-- Modelled from the spec: the set of ALL positions at which the text query
occurs in the haystack, overlapping occurrences included.  This is the
reading of "one ContentMatch per occurrence of the text query in the file
bytes" with "occurrence" taken as any matching position; it is compared with
`findIter`, the translation of the source. -/
def specOccurrences (m : Matcher) (s : Bytes) : List Nat :=
  (List.range (s.length + 1)).filter (fun p => m.matchesAt s p)

/-- Model of `memchr::memchr`: index of the first occurrence of byte `b`. -/
def memchr (b : Nat) : Bytes → Option Nat
  | [] => none
  | c :: cs => if c = b then some 0 else (memchr b cs).map (· + 1)

/-- Model of `memchr::memrchr`: index of the last occurrence of byte `b`. -/
def memrchr (b : Nat) : Bytes → Option Nat
  | [] => none
  | c :: cs =>
    match memrchr b cs with
    | some i => some (i + 1)
    | none => if c = b then some 0 else none

/-- Rust slice `s[a..b]` (for `a ≤ b ≤ |s|`; total here). -/
def slice (s : Bytes) (a b : Nat) : Bytes := (s.take b).drop a

/-- Start offset of the line enclosing position `p` (src/lib.rs line 199):
one past the last newline before `p`, or 0. -/
def lineStartAt (s : Bytes) (p : Nat) : Nat :=
  match memrchr 10 (s.take p) with
  | some q => q + 1
  | none => 0

/-- End offset of the line enclosing position `p` (src/lib.rs line 200):
the first newline at or after `p`, or the end of the buffer. -/
def lineEndAt (s : Bytes) (p : Nat) : Nat :=
  match memchr 10 (s.drop p) with
  | some q => p + q
  | none => s.length

/-- Strip one trailing carriage-return byte (src/lib.rs lines 203-207). -/
def stripTrailingCR (l : Bytes) : Bytes :=
  if l.getLast? = some 13 then l.dropLast else l

/-- The line text extracted for a match at position `p`. -/
def lineTextAt (s : Bytes) (p : Nat) : Bytes :=
  stripTrailingCR (slice s (lineStartAt s p) (lineEndAt s p))

/-- The event type sent over the channel (src/lib.rs lines 26-40). -/
inductive SearchResult where
  | ContentMatch (path : Bytes) (line_number : Nat) (line_text : Bytes)
  | FileNameMatch (path : Bytes)
  | ProgressUpdate (delta : Nat)
  deriving DecidableEq

/-- Loop body of `process_file_content` (src/lib.rs lines 194-214):
`last` is `last_counted_pos`, `cur` is `current_line_number`; for each match
position the line number advances by the newlines between the previous match
start and this one. -/
def pfcGo (path : Bytes) (mmap : Bytes) : Nat → Nat → List Nat → List SearchResult
  | _, _, [] => []
  | last, cur, p :: rest =>
    let cur' := cur + (slice mmap last p).count 10
    SearchResult.ContentMatch path cur' (lineTextAt mmap p) :: pfcGo path mmap p cur' rest

/-- Translation of `process_file_content` (src/lib.rs lines 190-216): one `ContentMatch` per
position reported by `find_iter`, with incrementally computed line numbers.
(The source function returns `Result` but never constructs an error.) -/
def process_file_content (path : Bytes) (mmap : Bytes) (ac : Matcher) : List SearchResult :=
  pfcGo path mmap 0 1 (findIter ac mmap)

/-- Translation of `SearchOptions` (src/lib.rs lines 43-50). -/
structure SearchOptions where
  root : Bytes
  text_query : Option Bytes
  file_query : Option Bytes
  ignore_case : Bool
  max_depth : Nat
  file_types : Option Bytes
  deriving DecidableEq

/-- Translation of `SearchConfig` (src/lib.rs lines 53-57); the `HashSet` of extensions is
modelled as a list queried by membership. -/
structure SearchConfig where
  text_matcher : Option Matcher
  file_matcher : Option Matcher
  allowed_exts : Option (List Bytes)
  deriving DecidableEq

/-- A directory entry as seen by the walker callback.  `fileName` is the byte
content of the lossy-decoded file name, `extension` the result of
`path.extension().and_then(|e| e.to_str())`, `content` the bytes the memory
map would expose, `openOk`/`mmapOk` whether `File::open`/`Mmap::map` succeed,
and `gitignored` whether an applicable .gitignore rule excludes the entry
(consumed by the walker model, not by the callback). -/
structure Entry where
  depth : Nat
  path : Bytes
  fileName : Bytes
  isFile : Bool
  extension : Option Bytes
  openOk : Bool
  mmapOk : Bool
  content : Bytes
  gitignored : Bool
  deriving DecidableEq

/-- ASCII whitespace, the fragment of `char::is_whitespace` relevant to the
byte-level model. -/
def isWhitespaceB (b : Nat) : Bool :=
  b == 32 || b == 9 || b == 10 || b == 11 || b == 12 || b == 13

/-- Model of `str::trim` at byte level. -/
def trimBytes (s : Bytes) : Bytes :=
  ((s.dropWhile isWhitespaceB).reverse.dropWhile isWhitespaceB).reverse

/-- Model of `str::split` on a comma: the pieces between commas, empties preserved. -/
def splitOnComma : Bytes → List Bytes
  | [] => [[]]
  | c :: cs =>
    if c = 44 then [] :: splitOnComma cs
    else
      match splitOnComma cs with
      | [] => [[c]]
      | piece :: rest => (c :: piece) :: rest

/-- Model of `str::to_lowercase` restricted to ASCII (all inputs of interest are
ASCII extension tokens). -/
def toLowerBytes (s : Bytes) : Bytes := s.map asciiLower

/-- Construction of `allowed_exts` (src/lib.rs lines 77-79): split the
configured string on commas, trim and lower-case each token. -/
def buildAllowedExts (s : Bytes) : List Bytes :=
  (splitOnComma s).map (fun ext => toLowerBytes (trimBytes ext))

/-- The extension filter (src/lib.rs lines 156-161): no configured set
accepts everything; with a set, a file is accepted only if it has an
extension whose lower-casing is in the set. -/
def matchesExt (allowed : Option (List Bytes)) (ext : Option Bytes) : Bool :=
  match allowed with
  | none => true
  | some exts =>
    match ext with
    | none => false
    | some e => exts.contains (toLowerBytes e)

/-- The skip-list of `is_important` (src/lib.rs lines 182-188), as byte
strings: "Windows", "Program Files", "Program Files (x86)", "AppData",
"Temp", ".git", "node_modules". -/
def skip_names : List Bytes :=
  [[87, 105, 110, 100, 111, 119, 115],
   [80, 114, 111, 103, 114, 97, 109, 32, 70, 105, 108, 101, 115],
   [80, 114, 111, 103, 114, 97, 109, 32, 70, 105, 108, 101, 115, 32, 40, 120, 56, 54, 41],
   [65, 112, 112, 68, 97, 116, 97],
   [84, 101, 109, 112],
   [46, 103, 105, 116],
   [110, 111, 100, 101, 95, 109, 111, 100, 117, 108, 101, 115]]

/-- Translation of `is_important` (src/lib.rs lines 182-188): true unless the file name is
one of the skip-list names. -/
def is_important (name : Bytes) : Bool := !(skip_names.contains name)

/-- The name-matching step (src/lib.rs lines 139-151): the emitted
`FileNameMatch` events and the resulting `file_name_match` flag. -/
def fileNameEvents (fm : Option Matcher) (e : Entry) : List SearchResult × Bool :=
  match fm with
  | some m =>
    if m.isMatch e.fileName then ([SearchResult.FileNameMatch e.path], true) else ([], false)
  | none => ([], true)

/-- The binary heuristic (src/lib.rs line 166): no NUL byte among the first
`min 1024 len` bytes. -/
def notBinary (content : Bytes) : Bool :=
  (memchr 0 (content.take (min 1024 content.length))).isNone

/-- The content-matching step (src/lib.rs lines 154-175): scan the file only
if a text matcher is configured, the name matched, the entry is a regular
file, the extension filter accepts it, open and mmap succeed, and the binary
probe finds no NUL. -/
def contentEvents (conf : SearchConfig) (e : Entry) (file_name_match : Bool) : List SearchResult :=
  match conf.text_matcher with
  | none => []
  | some tm =>
    if file_name_match && e.isFile then
      if matchesExt conf.allowed_exts e.extension then
        if e.openOk then
          if e.mmapOk then
            if notBinary e.content then
              process_file_content e.path e.content tm
            else []
          else []
        else []
      else []
    else []

/-- All match events produced for one entry that reaches the matching code. -/
def entryEvents (conf : SearchConfig) (e : Entry) : List SearchResult :=
  (fileNameEvents conf.file_matcher e).1 ++
    contentEvents conf e (fileNameEvents conf.file_matcher e).2

/-- Translation of `ignore::WalkState`. -/
inductive WalkState where
  | Continue
  | Skip
  | Quit
  deriving DecidableEq

/-- The batched progress emission (src/lib.rs lines 116-119): the callback
that receives counter value `counterBefore` from `fetch_add` sends one
`ProgressUpdate(50)` exactly when `counterBefore + 1` is a multiple of 50. -/
def progressEvents (counterBefore : Nat) : List SearchResult :=
  if (counterBefore + 1) % 50 == 0 then [SearchResult.ProgressUpdate 50] else []

/-- The walker callback (src/lib.rs lines 115-178) for one visited item:
increment and progress first, then the cancellation check, then the `Err`
case, then the skip-list, then matching.  Returns the `WalkState` and the
events sent during this invocation. -/
def visit (conf : SearchConfig) (counterBefore : Nat) (cancelled : Bool) (item : Option Entry) :
    WalkState × List SearchResult :=
  let progress := progressEvents counterBefore
  if cancelled then (WalkState.Quit, progress)
  else
    match item with
    | none => (WalkState.Continue, progress)
    | some e =>
      if decide (0 < e.depth) && !(is_important e.fileName) then (WalkState.Skip, progress)
      else (WalkState.Continue, progress ++ entryEvents conf e)

/-- The walk (src/lib.rs lines 108-179), linearised: the shared counter takes
the values `n, n+1, ...` across callback invocations, `ca i` is the value of
the cancellation flag observed by the check of the invocation with counter
value `i`, and `Quit` stops the run.  All events sent, in order. -/
def runWalk (conf : SearchConfig) (ca : Nat → Bool) : Nat → List (Option Entry) → List SearchResult
  | _, [] => []
  | n, item :: rest =>
    let r := visit conf n (ca n) item
    match r.1 with
    | WalkState.Quit => r.2
    | _ => r.2 ++ runWalk conf ca (n + 1) rest

/-- The number of callback invocations of the walk, i.e. the final value of
the shared counter: every invocation counts, including the one that observes
the cancellation flag and quits. -/
def visitedCount (conf : SearchConfig) (ca : Nat → Bool) : Nat → List (Option Entry) → Nat
  | _, [] => 0
  | n, item :: rest =>
    match (visit conf n (ca n) item).1 with
    | WalkState.Quit => 1
    | _ => 1 + visitedCount conf ca (n + 1) rest

/-- The walker builder configuration (src/lib.rs lines 90-103). -/
structure WalkerConfig where
  maxDepth : Option Nat
  hidden : Bool
  gitIgnore : Bool
  deriving DecidableEq

/-- The two builder chains of `run_search` (src/lib.rs lines 90-103): the
non-Windows build uses `hidden(false)`, the Windows build `hidden(true)`;
both use `max_depth(Some(..))` and `git_ignore(true)`. -/
def buildWalker (maxDepth : Nat) (isWindows : Bool) : WalkerConfig :=
  if isWindows then ⟨some maxDepth, true, true⟩
  else ⟨some maxDepth, false, true⟩

/-- An item survives gitignore filtering: `Err` items are still handed to the
callback; an `Ok` entry survives iff no applicable .gitignore rule excludes
it. -/
def keepItem : Option Entry → Bool
  | some e => !e.gitignored
  | none => true

/-- Modelled from the `ignore` crate contract: with `git_ignore(true)` the
walker never yields entries excluded by applicable .gitignore rules; with the
flag off it would yield them. -/
def walkerItems (cfg : WalkerConfig) (items : List (Option Entry)) : List (Option Entry) :=
  if cfg.gitIgnore then items.filter keepItem else items

/-- Lifting of `Option::map` over matcher construction with the `expect` of
src/lib.rs lines 61-74: a build failure aborts the run, modelled as the
error propagating to the caller of `run_search`.  The build outcome of the
third-party `AhoCorasickBuilder::build` is supplied by the `buildAC`
parameter. -/
def buildOpt (buildAC : Bytes → Bool → Except String Matcher) :
    Option Bytes → Bool → Except String (Option Matcher)
  | none, _ => Except.ok none
  | some q, ci => (buildAC q ci).map some

/-- The `SearchConfig` assembled by `run_search` (src/lib.rs lines 82-86),
given the built matchers. -/
def mkConfig (tm fm : Option Matcher) (o : SearchOptions) : SearchConfig :=
  { text_matcher := tm, file_matcher := fm,
    allowed_exts := o.file_types.map buildAllowedExts }

/-- Translation of `run_search` (src/lib.rs lines 59-180).  `buildAC` supplies the outcome
of each matcher build; `isWindows` selects the builder chain; `ca` is the
cancellation-flag schedule; `items` is the linearised sequence of callback
invocations the walker would perform for the tree under the root.  The
result is the complete event stream (the channel content until all senders
drop), or the build failure that aborted the run before the walk. -/
def run_search (buildAC : Bytes → Bool → Except String Matcher) (o : SearchOptions)
    (isWindows : Bool) (ca : Nat → Bool) (items : List (Option Entry)) :
    Except String (List SearchResult) :=
  match buildOpt buildAC o.text_query o.ignore_case with
  | Except.error e => Except.error e
  | Except.ok tm =>
    match buildOpt buildAC o.file_query o.ignore_case with
    | Except.error e => Except.error e
    | Except.ok fm =>
      Except.ok (runWalk (mkConfig tm fm o) ca 0
        (walkerItems (buildWalker o.max_depth isWindows) items))

/-- The caller-side normalisation of the extension-list string
(src/main.rs line 235): a blank or empty string becomes `None` before the
options are handed to `run_search`. -/
def cleaned_file_types : Option Bytes → Option Bytes
  | none => none
  | some s => if !(trimBytes s).isEmpty then some s else none

/-- Event classifiers used in the statements. -/
def isContentMatch : SearchResult → Bool
  | SearchResult.ContentMatch _ _ _ => true
  | _ => false

def isMatchEvent : SearchResult → Bool
  | SearchResult.ContentMatch _ _ _ => true
  | SearchResult.FileNameMatch _ => true
  | SearchResult.ProgressUpdate _ => false

/-- The line number carried by an event (0 for non-content events). -/
def lineNumberOf : SearchResult → Nat
  | SearchResult.ContentMatch _ ln _ => ln
  | _ => 0

/-- Sum of the deltas of the `ProgressUpdate` events of a stream. -/
def progressSum : List SearchResult → Nat
  | [] => 0
  | SearchResult.ProgressUpdate d :: rest => d + progressSum rest
  | SearchResult.ContentMatch _ _ _ :: rest => progressSum rest
  | SearchResult.FileNameMatch _ :: rest => progressSum rest

/-! ### Auxiliary lemmas -/

theorem count_take_split (s : Bytes) (a b x : Nat) (h : a ≤ b) :
    (s.take b).count x = (s.take a).count x + (slice s a b).count x := by
  have h2 : (s.take b).take a ++ (s.take b).drop a = s.take b := List.take_append_drop a (s.take b)
  have h3 : (s.take b).take a = s.take a := by
    rw [List.take_take, min_eq_left h]
  calc (s.take b).count x
      = ((s.take b).take a ++ (s.take b).drop a).count x := by rw [h2]
    _ = (s.take a).count x + (slice s a b).count x := by
        rw [List.count_append, h3]; rfl

theorem count_take_mono (s : Bytes) (a b x : Nat) (h : a ≤ b) :
    (s.take a).count x ≤ (s.take b).count x := by
  rw [count_take_split s a b x h]; omega

theorem getD_take (s : Bytes) : ∀ (p j : Nat), j < p → (s.take p).getD j 0 = s.getD j 0 := by
  induction s with
  | nil => intro p j _; simp
  | cons c cs ih =>
    intro p j hj
    match p, j with
    | p + 1, 0 => simp
    | p + 1, j + 1 =>
      simp only [List.take_succ_cons, List.getD_cons_succ]
      exact ih p j (by omega)

theorem getD_drop (s : Bytes) : ∀ (p q : Nat), (s.drop p).getD q 0 = s.getD (p + q) 0 := by
  induction s with
  | nil => intro p q; simp
  | cons c cs ih =>
    intro p q
    match p with
    | 0 => simp
    | p + 1 =>
      simp only [List.drop_succ_cons, List.getD_cons_succ, Nat.succ_add]
      exact ih p q

theorem memchr_some (b : Nat) : ∀ (s : Bytes) (i : Nat), memchr b s = some i →
    i < s.length ∧ s.getD i 0 = b ∧ ∀ j, j < i → s.getD j 0 ≠ b := by
  intro s
  induction s with
  | nil => intro i h; simp [memchr] at h
  | cons c cs ih =>
    intro i h
    rw [memchr] at h
    by_cases hc : c = b
    · rw [if_pos hc] at h
      cases h
      refine ⟨by simp, by simpa using hc, ?_⟩
      intro j hj; omega
    · rw [if_neg hc] at h
      match hm : memchr b cs with
      | none => rw [hm] at h; simp at h
      | some i0 =>
        rw [hm] at h
        have h' : i0 + 1 = i := by simpa using h
        obtain ⟨h1, h2, h3⟩ := ih i0 hm
        subst h'
        refine ⟨by simpa using h1, by simpa using h2, ?_⟩
        intro j hj
        match j with
        | 0 => simpa using hc
        | j + 1 =>
          simp only [List.getD_cons_succ]
          exact h3 j (by omega)

theorem memchr_none (b : Nat) : ∀ (s : Bytes), memchr b s = none →
    ∀ j, j < s.length → s.getD j 0 ≠ b := by
  intro s
  induction s with
  | nil => intro _ j hj; simp at hj
  | cons c cs ih =>
    intro h j hj
    rw [memchr] at h
    by_cases hc : c = b
    · rw [if_pos hc] at h; simp at h
    · rw [if_neg hc] at h
      match j with
      | 0 => simpa using hc
      | j + 1 =>
        simp only [List.getD_cons_succ]
        match hm : memchr b cs with
        | some i0 => rw [hm] at h; simp at h
        | none => exact ih hm j (by simpa using hj)

theorem memrchr_none_aux (b : Nat) : ∀ (s : Bytes), memrchr b s = none →
    ∀ j, j < s.length → s.getD j 0 ≠ b := by
  intro s
  induction s with
  | nil => intro _ j hj; simp at hj
  | cons c cs ih =>
    intro h j hj
    rw [memrchr] at h
    match hm : memrchr b cs with
    | some i0 => rw [hm] at h; simp at h
    | none =>
      rw [hm] at h
      by_cases hc : c = b
      · rw [if_pos hc] at h; simp at h
      · match j with
        | 0 => simpa using hc
        | j + 1 =>
          simp only [List.getD_cons_succ]
          exact ih hm j (by simpa using hj)

theorem memrchr_some (b : Nat) : ∀ (s : Bytes) (i : Nat), memrchr b s = some i →
    i < s.length ∧ s.getD i 0 = b ∧ ∀ j, i < j → j < s.length → s.getD j 0 ≠ b := by
  intro s
  induction s with
  | nil => intro i h; simp [memrchr] at h
  | cons c cs ih =>
    intro i h
    rw [memrchr] at h
    match hm : memrchr b cs with
    | some i0 =>
      rw [hm] at h
      cases h
      obtain ⟨h1, h2, h3⟩ := ih i0 hm
      refine ⟨by simpa using h1, by simpa using h2, ?_⟩
      intro j hj hjl
      match j with
      | 0 => omega
      | j + 1 =>
        simp only [List.getD_cons_succ]
        exact h3 j (by omega) (by simpa using hjl)
    | none =>
      rw [hm] at h
      by_cases hc : c = b
      · rw [if_pos hc] at h
        cases h
        refine ⟨by simp, by simpa using hc, ?_⟩
        intro j hj hjl
        match j with
        | 0 => omega
        | j + 1 =>
          simp only [List.getD_cons_succ]
          exact memrchr_none_aux b cs hm j (by simpa using hjl)
      · rw [if_neg hc] at h; simp at h

theorem findFrom_ge (m : Matcher) (s : Bytes) :
    ∀ (fuel p : Nat), ∀ q ∈ findFrom m s p fuel, p ≤ q := by
  intro fuel
  induction fuel with
  | zero => intro p q hq; simp [findFrom] at hq
  | succ fuel ih =>
    intro p q hq
    rw [findFrom] at hq
    by_cases hb : p + m.pattern.length ≤ s.length
    · rw [if_pos hb] at hq
      by_cases hmat : m.matchesAt s p = true
      · rw [if_pos hmat] at hq
        rcases List.mem_cons.mp hq with h | h
        · omega
        · have := ih _ _ h; omega
      · rw [if_neg hmat] at hq
        have := ih _ _ hq; omega
    · rw [if_neg hb] at hq; simp at hq

theorem findFrom_pairwise (m : Matcher) (s : Bytes) :
    ∀ (fuel p : Nat), List.Pairwise (· < ·) (findFrom m s p fuel) := by
  intro fuel
  induction fuel with
  | zero => intro p; simp [findFrom]
  | succ fuel ih =>
    intro p
    rw [findFrom]
    by_cases hb : p + m.pattern.length ≤ s.length
    · rw [if_pos hb]
      by_cases hmat : m.matchesAt s p = true
      · rw [if_pos hmat]
        refine List.pairwise_cons.mpr ⟨?_, ih _⟩
        intro q hq
        have := findFrom_ge m s fuel (p + max m.pattern.length 1) q hq
        have : p + 1 ≤ p + max m.pattern.length 1 := by
          have := Nat.le_max_right m.pattern.length 1; omega
        omega
      · rw [if_neg hmat]; exact ih _
    · rw [if_neg hb]; simp

theorem findFrom_matches (m : Matcher) (s : Bytes) :
    ∀ (fuel p : Nat), ∀ q ∈ findFrom m s p fuel, m.matchesAt s q = true := by
  intro fuel
  induction fuel with
  | zero => intro p q hq; simp [findFrom] at hq
  | succ fuel ih =>
    intro p q hq
    rw [findFrom] at hq
    by_cases hb : p + m.pattern.length ≤ s.length
    · rw [if_pos hb] at hq
      by_cases hmat : m.matchesAt s p = true
      · rw [if_pos hmat] at hq
        rcases List.mem_cons.mp hq with h | h
        · subst h; exact hmat
        · exact ih _ _ h
      · rw [if_neg hmat] at hq
        exact ih _ _ hq
    · rw [if_neg hb] at hq; simp at hq

theorem findFrom_inbounds (m : Matcher) (s : Bytes) :
    ∀ (fuel p : Nat), ∀ q ∈ findFrom m s p fuel, q + m.pattern.length ≤ s.length := by
  intro fuel
  induction fuel with
  | zero => intro p q hq; simp [findFrom] at hq
  | succ fuel ih =>
    intro p q hq
    rw [findFrom] at hq
    by_cases hb : p + m.pattern.length ≤ s.length
    · rw [if_pos hb] at hq
      by_cases hmat : m.matchesAt s p = true
      · rw [if_pos hmat] at hq
        rcases List.mem_cons.mp hq with h | h
        · subst h; exact hb
        · exact ih _ _ h
      · rw [if_neg hmat] at hq
        exact ih _ _ hq
    · rw [if_neg hb] at hq; simp at hq

theorem findIter_pairwise (m : Matcher) (s : Bytes) :
    List.Pairwise (· < ·) (findIter m s) := findFrom_pairwise m s _ 0

theorem findIter_matches (m : Matcher) (s : Bytes) :
    ∀ q ∈ findIter m s, m.matchesAt s q = true := findFrom_matches m s _ 0

theorem findIter_inbounds (m : Matcher) (s : Bytes) :
    ∀ q ∈ findIter m s, q + m.pattern.length ≤ s.length := findFrom_inbounds m s _ 0

/-- The boundary facts for the extracted line at position `p`: the start is
just after the preceding newline (or 0), the end is at the next newline (or
the buffer end), and the span between them contains no newline. -/
theorem lineBounds (s : Bytes) (p : Nat) (hp : p ≤ s.length) :
    lineStartAt s p ≤ p ∧ p ≤ lineEndAt s p ∧ lineEndAt s p ≤ s.length ∧
    (∀ j, lineStartAt s p ≤ j → j < lineEndAt s p → s.getD j 0 ≠ 10) ∧
    (lineStartAt s p = 0 ∨ s.getD (lineStartAt s p - 1) 0 = 10) ∧
    (lineEndAt s p = s.length ∨ s.getD (lineEndAt s p) 0 = 10) := by
  have hlt : (s.take p).length = p := by
    rw [List.length_take]; omega
  have hld : (s.drop p).length = s.length - p := by
    rw [List.length_drop]
  have hstart : lineStartAt s p ≤ p ∧
      (∀ j, lineStartAt s p ≤ j → j < p → s.getD j 0 ≠ 10) ∧
      (lineStartAt s p = 0 ∨ s.getD (lineStartAt s p - 1) 0 = 10) := by
    match hm : memrchr 10 (s.take p) with
    | some q =>
      have hls : lineStartAt s p = q + 1 := by rw [lineStartAt, hm]
      obtain ⟨h1, h2, h3⟩ := memrchr_some 10 (s.take p) q hm
      rw [hlt] at h1
      rw [hls]
      refine ⟨by omega, ?_, Or.inr ?_⟩
      · intro j hj hjp
        have := h3 j (by omega) (by omega)
        rw [getD_take s p j hjp] at this
        exact this
      · have hq : q + 1 - 1 = q := by omega
        rw [hq, ← getD_take s p q (by omega)]
        exact h2
    | none =>
      have hls : lineStartAt s p = 0 := by rw [lineStartAt, hm]
      rw [hls]
      refine ⟨by omega, ?_, Or.inl rfl⟩
      intro j hj hjp
      have := memrchr_none_aux 10 (s.take p) hm j (by omega)
      rw [getD_take s p j hjp] at this
      exact this
  have hend : p ≤ lineEndAt s p ∧ lineEndAt s p ≤ s.length ∧
      (∀ j, p ≤ j → j < lineEndAt s p → s.getD j 0 ≠ 10) ∧
      (lineEndAt s p = s.length ∨ s.getD (lineEndAt s p) 0 = 10) := by
    match hm : memchr 10 (s.drop p) with
    | some q =>
      have hle : lineEndAt s p = p + q := by rw [lineEndAt, hm]
      obtain ⟨h1, h2, h3⟩ := memchr_some 10 (s.drop p) q hm
      rw [hld] at h1
      rw [hle]
      refine ⟨by omega, by omega, ?_, Or.inr ?_⟩
      · intro j hj hjq
        have := h3 (j - p) (by omega)
        rw [getD_drop s p (j - p)] at this
        have heq : p + (j - p) = j := by omega
        rw [heq] at this
        exact this
      · rw [← getD_drop s p q]
        exact h2
    | none =>
      have hle : lineEndAt s p = s.length := by rw [lineEndAt, hm]
      rw [hle]
      refine ⟨by omega, by omega, ?_, Or.inl rfl⟩
      intro j hj hjl
      have := memchr_none 10 (s.drop p) hm (j - p) (by omega)
      rw [getD_drop s p (j - p)] at this
      have heq : p + (j - p) = j := by omega
      rw [heq] at this
      exact this
  obtain ⟨hs1, hs2, hs3⟩ := hstart
  obtain ⟨he1, he2, he3, he4⟩ := hend
  refine ⟨hs1, he1, he2, ?_, hs3, he4⟩
  intro j hj1 hj2
  by_cases hjp : j < p
  · exact hs2 j hj1 hjp
  · exact he3 j (by omega) hj2

theorem pfcGo_eq (path mmap : Bytes) :
    ∀ (ps : List Nat) (last : Nat), (∀ q ∈ ps, last ≤ q) → List.Pairwise (· < ·) ps →
      pfcGo path mmap last (1 + (mmap.take last).count 10) ps =
        ps.map (fun p =>
          SearchResult.ContentMatch path (1 + (mmap.take p).count 10) (lineTextAt mmap p)) := by
  intro ps
  induction ps with
  | nil => intro last _ _; rfl
  | cons p rest ih =>
    intro last hge hpw
    have hlp : last ≤ p := hge p (List.mem_cons_self p rest)
    obtain ⟨hhead, hpw2⟩ := List.pairwise_cons.mp hpw
    have hkey : 1 + (mmap.take last).count 10 + (slice mmap last p).count 10
        = 1 + (mmap.take p).count 10 := by
      have := count_take_split mmap last p 10 hlp
      omega
    have hrec := ih p (fun q hq => Nat.le_of_lt (hhead q hq)) hpw2
    simp only [pfcGo, List.map_cons]
    rw [hkey, hrec]

theorem process_file_content_eq (path mmap : Bytes) (m : Matcher) :
    process_file_content path mmap m =
      (findIter m mmap).map (fun p =>
        SearchResult.ContentMatch path (1 + (mmap.take p).count 10) (lineTextAt mmap p)) := by
  have h := pfcGo_eq path mmap (findIter m mmap) 0
    (fun q _ => Nat.zero_le q) (findIter_pairwise m mmap)
  rw [process_file_content]
  simpa using h

/-- C1 (amended): for every scanned file, one `ContentMatch` event is emitted
per occurrence reported by the leftmost non-overlapping substring scan of
`find_iter` (the scan resumes after the end of each reported occurrence, so
overlapping occurrences yield a single event); each event carries the 1-based
line number equal to 1 plus the number of newline bytes before the occurrence
start, and the byte content of the full enclosing line, running from just
after the preceding newline (or file start) to just before the next newline
(or file end), with a single trailing carriage-return byte stripped.  The
line bytes are then decoded by the total lossy UTF-8 decode, which replaces
invalid sequences rather than failing. -/
theorem c1_events_per_reported_occurrence (path mmap : Bytes) (m : Matcher) :
    process_file_content path mmap m =
      (findIter m mmap).map (fun p =>
        SearchResult.ContentMatch path (1 + (mmap.take p).count 10) (lineTextAt mmap p)) ∧
    (∀ p ∈ findIter m mmap, m.matchesAt mmap p = true) ∧
    (∀ p ∈ findIter m mmap,
      lineStartAt mmap p ≤ p ∧ p ≤ lineEndAt mmap p ∧ lineEndAt mmap p ≤ mmap.length ∧
      (∀ j, lineStartAt mmap p ≤ j → j < lineEndAt mmap p → mmap.getD j 0 ≠ 10) ∧
      (lineStartAt mmap p = 0 ∨ mmap.getD (lineStartAt mmap p - 1) 0 = 10) ∧
      (lineEndAt mmap p = mmap.length ∨ mmap.getD (lineEndAt mmap p) 0 = 10) ∧
      lineTextAt mmap p =
        stripTrailingCR (slice mmap (lineStartAt mmap p) (lineEndAt mmap p))) := by
  refine ⟨process_file_content_eq path mmap m, findIter_matches m mmap, ?_⟩
  intro p hp
  have hple : p ≤ mmap.length := by
    have := findIter_inbounds m mmap p hp
    omega
  obtain ⟨h1, h2, h3, h4, h5, h6⟩ := lineBounds mmap p hple
  exact ⟨h1, h2, h3, h4, h5, h6, rfl⟩

/-- C1 witness: on the file bytes "hi\nhi" with query "hi" the theorem
instantiates to a concrete event list with line numbers 1 and 2. -/
theorem c1_witness :
    process_file_content [112] [104, 105, 10, 104, 105] { pattern := [104, 105], ignoreCase := false } =
      (findIter { pattern := [104, 105], ignoreCase := false } [104, 105, 10, 104, 105]).map
        (fun p => SearchResult.ContentMatch [112]
          (1 + (([104, 105, 10, 104, 105] : Bytes).take p).count 10)
          (lineTextAt [104, 105, 10, 104, 105] p)) :=
  (c1_events_per_reported_occurrence [112] [104, 105, 10, 104, 105]
    { pattern := [104, 105], ignoreCase := false }).1

/-- C1 counterexample: the claim as stated demands one event per occurrence
of the query in the file bytes.  With query "aa" and file bytes "aaa" the
query occurs at positions 0 and 1, but the scan of `find_iter` is
non-overlapping and the code emits a single `ContentMatch`. -/
theorem c1_counterexample :
    (process_file_content [] [97, 97, 97] { pattern := [97, 97], ignoreCase := false }).length = 1 ∧
    (specOccurrences { pattern := [97, 97], ignoreCase := false } [97, 97, 97]).length = 2 := by
  decide

/-- C7: within one file, the `ContentMatch` events are emitted in strictly
ascending order of occurrence position, and their line numbers are
correspondingly ascending (non-decreasing; equal when two occurrences share a
line). -/
theorem c7_events_ordered (path mmap : Bytes) (m : Matcher) :
    List.Pairwise (· < ·) (findIter m mmap) ∧
    (process_file_content path mmap m).map lineNumberOf =
      (findIter m mmap).map (fun p => 1 + (mmap.take p).count 10) ∧
    List.Pairwise (· ≤ ·) ((process_file_content path mmap m).map lineNumberOf) := by
  have hmapeq : (process_file_content path mmap m).map lineNumberOf =
      (findIter m mmap).map (fun p => 1 + (mmap.take p).count 10) := by
    rw [process_file_content_eq, List.map_map]
    rfl
  refine ⟨findIter_pairwise m mmap, hmapeq, ?_⟩
  rw [hmapeq]
  rw [List.pairwise_map]
  refine (findIter_pairwise m mmap).imp ?_
  intro a b hab
  have := count_take_mono mmap a b 10 (Nat.le_of_lt hab)
  omega

/-- C7 witness: on the file bytes "a\naa" with query "a" the line numbers of
the emitted events are [1, 2, 2], ascending with a repeat on line 2. -/
theorem c7_witness :
    (process_file_content [] [97, 10, 97, 97] { pattern := [97], ignoreCase := false }).map
      lineNumberOf = [1, 2, 2] :=
  (c7_events_ordered [] [97, 10, 97, 97] { pattern := [97], ignoreCase := false }).2.1.trans
    (by decide)

/-! ### Event-shape lemmas for the walker callback -/

theorem mem_progressEvents (n : Nat) (r : SearchResult) (h : r ∈ progressEvents n) :
    r = SearchResult.ProgressUpdate 50 := by
  rw [progressEvents] at h
  split at h
  · simpa using h
  · simp at h

theorem mem_fileNameEvents (fm : Option Matcher) (e : Entry) (r : SearchResult)
    (h : r ∈ (fileNameEvents fm e).1) : r = SearchResult.FileNameMatch e.path := by
  cases fm with
  | none => simp [fileNameEvents] at h
  | some m =>
    rw [fileNameEvents] at h
    split at h
    · simpa using h
    · simp at h

theorem pfcGo_content (path mmap : Bytes) :
    ∀ (ps : List Nat) (last cur : Nat), ∀ r ∈ pfcGo path mmap last cur ps,
      isContentMatch r = true := by
  intro ps
  induction ps with
  | nil => intro last cur r hr; simp [pfcGo] at hr
  | cons p rest ih =>
    intro last cur r hr
    simp only [pfcGo] at hr
    rcases List.mem_cons.mp hr with h | h
    · subst h; rfl
    · exact ih _ _ _ h

theorem mem_contentEvents (conf : SearchConfig) (e : Entry) (b : Bool) (r : SearchResult)
    (h : r ∈ contentEvents conf e b) : isContentMatch r = true := by
  cases htm : conf.text_matcher with
  | none => simp [contentEvents, htm] at h
  | some tm =>
    simp only [contentEvents, htm] at h
    split at h
    · split at h
      · split at h
        · split at h
          · split at h
            · exact pfcGo_content _ _ _ _ _ r h
            · simp at h
          · simp at h
        · simp at h
      · simp at h
    · simp at h

theorem isMatchEvent_of_isContentMatch (r : SearchResult) (h : isContentMatch r = true) :
    isMatchEvent r = true := by
  cases r <;> simp [isContentMatch, isMatchEvent] at h ⊢

theorem entryEvents_are_matches (conf : SearchConfig) (e : Entry) :
    ∀ r ∈ entryEvents conf e, isMatchEvent r = true := by
  intro r hr
  rw [entryEvents] at hr
  rcases List.mem_append.mp hr with h | h
  · rw [mem_fileNameEvents _ _ _ h]; rfl
  · exact isMatchEvent_of_isContentMatch r (mem_contentEvents conf e _ r h)

theorem visit_shape (conf : SearchConfig) (n : Nat) (c : Bool) (item : Option Entry) :
    (visit conf n c item).2 = progressEvents n ∨
    (∃ e, item = some e ∧
      (visit conf n c item).2 = progressEvents n ++ entryEvents conf e) := by
  cases c with
  | true => left; simp [visit]
  | false =>
    cases item with
    | none => left; simp [visit]
    | some e =>
      by_cases hskip : (decide (0 < e.depth) && !(is_important e.fileName)) = true
      · left; simp [visit, hskip]
      · rw [Bool.not_eq_true] at hskip
        right
        exact ⟨e, rfl, by simp [visit, hskip]⟩

theorem visit_cancelled (conf : SearchConfig) (n : Nat) (item : Option Entry) :
    visit conf n true item = (WalkState.Quit, progressEvents n) := rfl

/-! ### Equations for the linearised walk -/

theorem runWalk_cons_quit (conf : SearchConfig) (ca : Nat → Bool) (n : Nat)
    (item : Option Entry) (rest : List (Option Entry))
    (h : (visit conf n (ca n) item).1 = WalkState.Quit) :
    runWalk conf ca n (item :: rest) = (visit conf n (ca n) item).2 := by
  simp only [runWalk]
  rw [h]

theorem runWalk_cons_continue (conf : SearchConfig) (ca : Nat → Bool) (n : Nat)
    (item : Option Entry) (rest : List (Option Entry))
    (h : (visit conf n (ca n) item).1 = WalkState.Continue) :
    runWalk conf ca n (item :: rest) =
      (visit conf n (ca n) item).2 ++ runWalk conf ca (n + 1) rest := by
  simp only [runWalk]
  rw [h]

theorem runWalk_cons_skip (conf : SearchConfig) (ca : Nat → Bool) (n : Nat)
    (item : Option Entry) (rest : List (Option Entry))
    (h : (visit conf n (ca n) item).1 = WalkState.Skip) :
    runWalk conf ca n (item :: rest) =
      (visit conf n (ca n) item).2 ++ runWalk conf ca (n + 1) rest := by
  simp only [runWalk]
  rw [h]

theorem visitedCount_cons_quit (conf : SearchConfig) (ca : Nat → Bool) (n : Nat)
    (item : Option Entry) (rest : List (Option Entry))
    (h : (visit conf n (ca n) item).1 = WalkState.Quit) :
    visitedCount conf ca n (item :: rest) = 1 := by
  simp only [visitedCount]
  rw [h]

theorem visitedCount_cons_continue (conf : SearchConfig) (ca : Nat → Bool) (n : Nat)
    (item : Option Entry) (rest : List (Option Entry))
    (h : (visit conf n (ca n) item).1 = WalkState.Continue) :
    visitedCount conf ca n (item :: rest) = 1 + visitedCount conf ca (n + 1) rest := by
  simp only [visitedCount]
  rw [h]

theorem visitedCount_cons_skip (conf : SearchConfig) (ca : Nat → Bool) (n : Nat)
    (item : Option Entry) (rest : List (Option Entry))
    (h : (visit conf n (ca n) item).1 = WalkState.Skip) :
    visitedCount conf ca n (item :: rest) = 1 + visitedCount conf ca (n + 1) rest := by
  simp only [visitedCount]
  rw [h]

/-! ### Progress accounting -/

theorem progressSum_append (l1 l2 : List SearchResult) :
    progressSum (l1 ++ l2) = progressSum l1 + progressSum l2 := by
  induction l1 with
  | nil => simp [progressSum]
  | cons r rest ih =>
    cases r <;> simp [progressSum, ih, Nat.add_assoc]

theorem progressSum_of_matches (l : List SearchResult)
    (h : ∀ r ∈ l, isMatchEvent r = true) : progressSum l = 0 := by
  induction l with
  | nil => rfl
  | cons r rest ih =>
    have hr := h r (List.mem_cons_self r rest)
    have hrest := fun r2 hr2 => h r2 (List.mem_cons_of_mem r hr2)
    cases r with
    | ProgressUpdate d => simp [isMatchEvent] at hr
    | ContentMatch p ln lt => rw [progressSum]; exact ih hrest
    | FileNameMatch p => rw [progressSum]; exact ih hrest

theorem progressSum_progressEvents (n : Nat) :
    progressSum (progressEvents n) = if (n + 1) % 50 == 0 then 50 else 0 := by
  rw [progressEvents]
  split <;> rfl

theorem progressSum_visit (conf : SearchConfig) (n : Nat) (c : Bool) (item : Option Entry) :
    progressSum (visit conf n c item).2 = if (n + 1) % 50 == 0 then 50 else 0 := by
  rcases visit_shape conf n c item with h | ⟨e, _, h⟩
  · rw [h, progressSum_progressEvents]
  · rw [h, progressSum_append, progressSum_progressEvents,
      progressSum_of_matches _ (entryEvents_are_matches conf e), Nat.add_zero]

theorem runWalk_progressSum (conf : SearchConfig) (ca : Nat → Bool) :
    ∀ (items : List (Option Entry)) (n : Nat),
      progressSum (runWalk conf ca n items) =
        ((n + visitedCount conf ca n items) / 50 - n / 50) * 50 := by
  intro items
  induction items with
  | nil => intro n; simp [runWalk, visitedCount, progressSum]
  | cons item rest ih =>
    intro n
    cases hst : (visit conf n (ca n) item).1 with
    | Quit =>
      rw [runWalk_cons_quit _ _ _ _ _ hst, visitedCount_cons_quit _ _ _ _ _ hst,
        progressSum_visit]
      simp only [beq_iff_eq]
      split <;> omega
    | Continue =>
      rw [runWalk_cons_continue _ _ _ _ _ hst, visitedCount_cons_continue _ _ _ _ _ hst,
        progressSum_append, progressSum_visit, ih (n + 1)]
      simp only [beq_iff_eq]
      split <;> omega
    | Skip =>
      rw [runWalk_cons_skip _ _ _ _ _ hst, visitedCount_cons_skip _ _ _ _ _ hst,
        progressSum_append, progressSum_visit, ih (n + 1)]
      simp only [beq_iff_eq]
      split <;> omega

theorem mem_visit_progress (conf : SearchConfig) (n : Nat) (c : Bool) (item : Option Entry)
    (d : Nat) (h : SearchResult.ProgressUpdate d ∈ (visit conf n c item).2) : d = 50 := by
  rcases visit_shape conf n c item with hs | ⟨e, _, hs⟩
  · rw [hs] at h
    have := mem_progressEvents n _ h
    simpa using this
  · rw [hs] at h
    rcases List.mem_append.mp h with h2 | h2
    · have := mem_progressEvents n _ h2
      simpa using this
    · have := entryEvents_are_matches conf e _ h2
      simp [isMatchEvent] at this

theorem runWalk_fifty (conf : SearchConfig) (ca : Nat → Bool) :
    ∀ (items : List (Option Entry)) (n d : Nat),
      SearchResult.ProgressUpdate d ∈ runWalk conf ca n items → d = 50 := by
  intro items
  induction items with
  | nil => intro n d h; simp [runWalk] at h
  | cons item rest ih =>
    intro n d h
    cases hst : (visit conf n (ca n) item).1 with
    | Quit =>
      rw [runWalk_cons_quit _ _ _ _ _ hst] at h
      exact mem_visit_progress conf n (ca n) item d h
    | Continue =>
      rw [runWalk_cons_continue _ _ _ _ _ hst] at h
      rcases List.mem_append.mp h with h2 | h2
      · exact mem_visit_progress conf n (ca n) item d h2
      · exact ih _ _ h2
    | Skip =>
      rw [runWalk_cons_skip _ _ _ _ _ hst] at h
      rcases List.mem_append.mp h with h2 | h2
      · exact mem_visit_progress conf n (ca n) item d h2
      · exact ih _ _ h2

/-- C5: over one run in which N callback invocations happen (N is the final
value of the shared counter), the sum of the deltas of all emitted
`ProgressUpdate` events equals `N / 50 * 50`, and every individual
`ProgressUpdate` carries exactly 50; the remainder below the next multiple of
50 is never flushed. -/
theorem c5_progress_accounting (conf : SearchConfig) (ca : Nat → Bool)
    (items : List (Option Entry)) :
    progressSum (runWalk conf ca 0 items) = visitedCount conf ca 0 items / 50 * 50 ∧
    ∀ d, SearchResult.ProgressUpdate d ∈ runWalk conf ca 0 items → d = 50 := by
  constructor
  · have h := runWalk_progressSum conf ca items 0
    simpa using h
  · intro d
    exact runWalk_fifty conf ca items 0 d

/-- C5 witness: 120 visited entries yield progress deltas summing to 100. -/
theorem c5_witness :
    progressSum (runWalk ⟨none, none, none⟩ (fun _ => false) 0 (List.replicate 120 none)) =
      visitedCount ⟨none, none, none⟩ (fun _ => false) 0 (List.replicate 120 none) / 50 * 50 ∧
    visitedCount ⟨none, none, none⟩ (fun _ => false) 0 (List.replicate 120 none) = 120 :=
  ⟨(c5_progress_accounting ⟨none, none, none⟩ (fun _ => false) (List.replicate 120 none)).1,
    by decide⟩

/-- C6: once the cancellation flag is set (it is monotone: set once, never
reset), the walk from the next per-entry check point onward emits no
`FileNameMatch` or `ContentMatch` event, and it stops at that check point
(at most the one batched progress event is emitted before the callbacks
cease and the channel closes). -/
theorem c6_cancellation (conf : SearchConfig) (ca : Nat → Bool)
    (items : List (Option Entry)) (k n : Nat)
    (hmono : ∀ i j, i ≤ j → ca i = true → ca j = true)
    (hk : ca k = true) (hkn : k ≤ n) :
    (∀ r ∈ runWalk conf ca n items, isMatchEvent r = false) ∧
    (runWalk conf ca n items).length ≤ 1 := by
  have hn : ca n = true := hmono k n hkn hk
  cases items with
  | nil =>
    constructor
    · intro r hr; simp [runWalk] at hr
    · simp [runWalk]
  | cons item rest =>
    have hq : (visit conf n (ca n) item).1 = WalkState.Quit := by
      rw [hn, visit_cancelled]
    have hev : (visit conf n (ca n) item).2 = progressEvents n := by
      rw [hn, visit_cancelled]
    rw [runWalk_cons_quit _ _ _ _ _ hq, hev]
    constructor
    · intro r hr
      rw [mem_progressEvents n r hr]; rfl
    · rw [progressEvents]
      split <;> simp

/-- C6 witness: with the flag set from entry 2 on, the walk starting at
check point 3 emits at most one event. -/
theorem c6_witness :
    (runWalk ⟨none, none, none⟩ (fun _ => true) 3 [none, none]).length ≤ 1 :=
  (c6_cancellation ⟨none, none, none⟩ (fun _ => true) [none, none] 2 3
    (fun _ _ _ h => h) rfl (by decide)).2

/-- C9: the skip-list prunes by entry name alone, regardless of entry kind:
any entry at depth greater than 0 whose file name is in the skip-list is
answered with `WalkState.Skip` and produces no match event, while an entry
with such a name at depth 0 (the root) is never pruned and proceeds to the
full matching work. -/
theorem c9_skip_list_by_name (conf : SearchConfig) (n : Nat) (e : Entry)
    (hname : skip_names.contains e.fileName = true) :
    (0 < e.depth →
      (visit conf n false (some e)).1 = WalkState.Skip ∧
      ∀ r ∈ (visit conf n false (some e)).2, isMatchEvent r = false) ∧
    (e.depth = 0 →
      visit conf n false (some e) =
        (WalkState.Continue, progressEvents n ++ entryEvents conf e)) := by
  have himp : is_important e.fileName = false := by
    rw [is_important, hname]
    rfl
  constructor
  · intro hd
    have hcond : (decide (0 < e.depth) && !(is_important e.fileName)) = true := by
      rw [himp]
      simp [hd]
    constructor
    · simp [visit, hcond]
    · intro r hr
      have hev : (visit conf n false (some e)).2 = progressEvents n := by
        simp [visit, hcond]
      rw [hev] at hr
      rw [mem_progressEvents n r hr]; rfl
  · intro hd
    have hcond : (decide (0 < e.depth) && !(is_important e.fileName)) = false := by
      simp [hd]
    simp [visit, hcond]

/-- C9 witness: a regular file named ".git" at depth 1 is skipped. -/
theorem c9_witness :
    skip_names.contains ([46, 103, 105, 116] : Bytes) = true ∧
    (visit ⟨none, none, none⟩ 0 false
      (some ⟨1, [112], [46, 103, 105, 116], true, none, true, true, [], false⟩)).1 =
      WalkState.Skip :=
  ⟨by decide,
    ((c9_skip_list_by_name ⟨none, none, none⟩ 0
      ⟨1, [112], [46, 103, 105, 116], true, none, true, true, [], false⟩
      (by decide)).1 (by decide)).1⟩

/-- C10: the counter increment and the batched progress emission happen
before the cancellation flag is consulted: at the check point where the flag
is observed set, the walk still counts that invocation (the count is 1, not
0) and still emits the `ProgressUpdate(50)` if that increment crossed a
multiple of 50, then quits with no further events. -/
theorem c10_count_and_progress_before_quit (conf : SearchConfig) (ca : Nat → Bool)
    (n : Nat) (item : Option Entry) (rest : List (Option Entry)) (h : ca n = true) :
    runWalk conf ca n (item :: rest) = progressEvents n ∧
    visitedCount conf ca n (item :: rest) = 1 ∧
    progressEvents n =
      (if (n + 1) % 50 == 0 then [SearchResult.ProgressUpdate 50] else []) := by
  have hq : (visit conf n (ca n) item).1 = WalkState.Quit := by
    rw [h, visit_cancelled]
  have hev : (visit conf n (ca n) item).2 = progressEvents n := by
    rw [h, visit_cancelled]
  refine ⟨?_, visitedCount_cons_quit _ _ _ _ _ hq, rfl⟩
  rw [runWalk_cons_quit _ _ _ _ _ hq, hev]

/-- C10 witness: flag already set at the entry with counter value 49; the
invocation still counts and still emits one `ProgressUpdate(50)`. -/
theorem c10_witness :
    runWalk ⟨none, none, none⟩ (fun _ => true) 49 [none] = [SearchResult.ProgressUpdate 50] ∧
    visitedCount ⟨none, none, none⟩ (fun _ => true) 49 [none] = 1 := by
  have h := c10_count_and_progress_before_quit ⟨none, none, none⟩ (fun _ => true) 49 none [] rfl
  exact ⟨h.1.trans (by decide), h.2.1⟩

/-! ### Extension filter, binary probe, build failure, gitignore -/

theorem contentEvents_scan (conf : SearchConfig) (e : Entry) (mtext : Matcher)
    (htm : conf.text_matcher = some mtext)
    (hext : matchesExt conf.allowed_exts e.extension = true)
    (hfile : e.isFile = true) (hopen : e.openOk = true) (hmmap : e.mmapOk = true)
    (hbin : notBinary e.content = true) :
    contentEvents conf e true = process_file_content e.path e.content mtext := by
  simp only [contentEvents, htm, hext, hfile, hopen, hmmap, hbin]
  simp

theorem contentEvents_binary (conf : SearchConfig) (e : Entry) (b : Bool)
    (hnb : notBinary e.content = false) : contentEvents conf e b = [] := by
  cases htm : conf.text_matcher with
  | none => simp [contentEvents, htm]
  | some tm => simp [contentEvents, htm, hnb]

/-- C2: a search run started from a blank or empty extension-list string has
no extension filter.  The caller normalises a blank string to `None`
(src/main.rs line 235), and `run_search` applies no filter for `None`
(src/lib.rs lines 156-161): the assembled configuration has no allow-set,
the filter accepts any extension (or none), and every entry that passes the
other eligibility conditions is content-scanned regardless of its
extension. -/
theorem c2_blank_means_no_filter (raw : Bytes) (o : SearchOptions) (tm fm : Option Matcher)
    (mtext : Matcher) (e : Entry)
    (hblank : trimBytes raw = [])
    (ho : o.file_types = cleaned_file_types (some raw))
    (htm : tm = some mtext)
    (hnm : (fileNameEvents fm e).2 = true)
    (hfile : e.isFile = true)
    (hopen : e.openOk = true)
    (hmmap : e.mmapOk = true)
    (hbin : notBinary e.content = true) :
    (mkConfig tm fm o).allowed_exts = none ∧
    matchesExt (mkConfig tm fm o).allowed_exts e.extension = true ∧
    entryEvents (mkConfig tm fm o) e =
      (fileNameEvents fm e).1 ++ process_file_content e.path e.content mtext := by
  have hclean : cleaned_file_types (some raw) = none := by
    rw [cleaned_file_types, hblank]
    rfl
  have hnone : (mkConfig tm fm o).allowed_exts = none := by
    rw [mkConfig]
    simp [ho, hclean]
  refine ⟨hnone, by rw [hnone]; rfl, ?_⟩
  rw [entryEvents]
  have hfm : (mkConfig tm fm o).file_matcher = fm := rfl
  rw [hfm, hnm]
  rw [contentEvents_scan (mkConfig tm fm o) e mtext (by rw [← htm]; rfl)
    (by rw [hnone]; rfl) hfile hopen hmmap hbin]

/-- C2 witness: blank string " ", a file with extension "xyz" and content
"a" containing the query "a" is scanned. -/
theorem c2_witness :
    trimBytes [32] = [] ∧
    entryEvents
      (mkConfig (some { pattern := [97], ignoreCase := false }) none
        { root := [], text_query := some [97], file_query := none, ignore_case := false,
          max_depth := 5, file_types := none })
      { depth := 0, path := [112], fileName := [102], isFile := true,
        extension := some [120, 121, 122], openOk := true, mmapOk := true,
        content := [97], gitignored := false } =
      (fileNameEvents none
        { depth := 0, path := [112], fileName := [102], isFile := true,
          extension := some [120, 121, 122], openOk := true, mmapOk := true,
          content := [97], gitignored := false }).1 ++
        process_file_content [112] [97] { pattern := [97], ignoreCase := false } :=
  ⟨by decide,
    (c2_blank_means_no_filter [32]
      { root := [], text_query := some [97], file_query := none, ignore_case := false,
        max_depth := 5, file_types := none }
      (some { pattern := [97], ignoreCase := false }) none
      { pattern := [97], ignoreCase := false }
      { depth := 0, path := [112], fileName := [102], isFile := true,
        extension := some [120, 121, 122], openOk := true, mmapOk := true,
        content := [97], gitignored := false }
      (by decide) (by decide) rfl rfl rfl rfl rfl (by decide)).2.2⟩

/-- C3: a file whose first `min 1024 len` bytes contain a NUL byte is
classified binary: its callback invocation emits no `ContentMatch` event at
all, even when the text query occurs later in the file (no partial scan). -/
theorem c3_binary_never_scanned (conf : SearchConfig) (e : Entry) (n : Nat) (c : Bool)
    (hbin : (memchr 0 (e.content.take (min 1024 e.content.length))).isSome = true) :
    ∀ r ∈ (visit conf n c (some e)).2, isContentMatch r = false := by
  have hnb : notBinary e.content = false := by
    rw [notBinary]
    cases hm : memchr 0 (e.content.take (min 1024 e.content.length)) with
    | none => rw [hm] at hbin; simp at hbin
    | some q => rfl
  intro r hr
  rcases visit_shape conf n c (some e) with hsh | ⟨e2, he2, hsh⟩
  · rw [hsh] at hr
    rw [mem_progressEvents n r hr]; rfl
  · have he : e2 = e := by
      injection he2.symm
    subst he
    rw [hsh] at hr
    rcases List.mem_append.mp hr with h | h
    · rw [mem_progressEvents n r h]; rfl
    · rw [entryEvents] at h
      rcases List.mem_append.mp h with h2 | h2
      · rw [mem_fileNameEvents _ _ _ h2]; rfl
      · rw [contentEvents_binary conf e2 _ hnb] at h2
        simp at h2

/-- C3 witness: content bytes [0, 97]: the NUL is in the probe window and
the query "a" occurring after it is never reported; the only event of this
invocation (at counter value 49) is `ProgressUpdate 50`, not a
`ContentMatch`. -/
theorem c3_witness :
    (memchr 0 ((([0, 97] : Bytes)).take (min 1024 ([0, 97] : Bytes).length))).isSome = true ∧
    isContentMatch (SearchResult.ProgressUpdate 50) = false :=
  ⟨by decide,
    c3_binary_never_scanned ⟨some { pattern := [97], ignoreCase := false }, none, none⟩
      { depth := 0, path := [112], fileName := [102], isFile := true, extension := none,
        openOk := true, mmapOk := true, content := [0, 97], gitignored := false }
      49 false (by decide) (SearchResult.ProgressUpdate 50) (by decide)⟩

/-- C4: a matcher construction failure (the `expect` on the builder result,
src/lib.rs lines 61-74) aborts the run before the walker is built and before
any callback runs: `run_search` propagates the failure to its caller and
produces no event, whatever the tree contents, for both the text-matcher and
the file-matcher build. -/
theorem c4_build_failure_aborts (buildAC : Bytes → Bool → Except String Matcher)
    (o : SearchOptions) (isWindows : Bool) (ca : Nat → Bool) (items : List (Option Entry))
    (msg : String)
    (hfail :
      (∃ t, o.text_query = some t ∧ buildAC t o.ignore_case = Except.error msg) ∨
      ((o.text_query = none ∨
        ∃ t mt, o.text_query = some t ∧ buildAC t o.ignore_case = Except.ok mt) ∧
       ∃ f, o.file_query = some f ∧ buildAC f o.ignore_case = Except.error msg)) :
    run_search buildAC o isWindows ca items = Except.error msg := by
  rcases hfail with ⟨t, ht, hb⟩ | ⟨htOk, f, hf, hb⟩
  · have h1 : buildOpt buildAC o.text_query o.ignore_case = Except.error msg := by
      rw [ht]
      simp [buildOpt, hb, Except.map]
    rw [run_search, h1]
  · have h2 : buildOpt buildAC o.file_query o.ignore_case = Except.error msg := by
      rw [hf]
      simp [buildOpt, hb, Except.map]
    rcases htOk with hnone | ⟨t, mt, ht, hok⟩
    · have h1 : buildOpt buildAC o.text_query o.ignore_case = Except.ok none := by
        rw [hnone]
        rfl
      rw [run_search, h1, h2]
    · have h1 : buildOpt buildAC o.text_query o.ignore_case = Except.ok (some mt) := by
        rw [ht]
        simp [buildOpt, hok, Except.map]
      rw [run_search, h1, h2]

/-- C4 witness: a failing build on the text query makes the whole run return
the error, with a nonempty tree that is never walked. -/
theorem c4_witness :
    run_search (fun _ _ => Except.error "bad")
      { root := [], text_query := some [97], file_query := none, ignore_case := false,
        max_depth := 3, file_types := none }
      false (fun _ => false) [none] = Except.error "bad" :=
  c4_build_failure_aborts (fun _ _ => Except.error "bad")
    { root := [], text_query := some [97], file_query := none, ignore_case := false,
      max_depth := 3, file_types := none }
    false (fun _ => false) [none] "bad" (Or.inl ⟨[97], rfl, rfl⟩)

theorem filter_idem (p : Option Entry → Bool) (l : List (Option Entry)) :
    (l.filter p).filter p = l.filter p := by
  induction l with
  | nil => rfl
  | cons x xs ih =>
    by_cases hx : p x = true
    · simp [List.filter_cons, hx, ih]
    · simp [List.filter_cons, hx, ih]

/-- C8: on both platform branches the walker is built with gitignore
handling enabled, so entries excluded by applicable .gitignore rules are
never visited: the run over any item sequence equals the run over the
sequence with the gitignore-excluded entries removed, hence such entries
produce no `FileNameMatch` or `ContentMatch` event. -/
theorem c8_gitignore_always_on (buildAC : Bytes → Bool → Except String Matcher)
    (o : SearchOptions) (isWindows : Bool) (ca : Nat → Bool)
    (items : List (Option Entry)) :
    (buildWalker o.max_depth isWindows).gitIgnore = true ∧
    run_search buildAC o isWindows ca items =
      run_search buildAC o isWindows ca (items.filter keepItem) := by
  have hgi : (buildWalker o.max_depth isWindows).gitIgnore = true := by
    rw [buildWalker]
    cases isWindows <;> rfl
  refine ⟨hgi, ?_⟩
  have hw : walkerItems (buildWalker o.max_depth isWindows) items =
      walkerItems (buildWalker o.max_depth isWindows) (items.filter keepItem) := by
    rw [walkerItems, walkerItems, hgi]
    simp [filter_idem]
  rw [run_search, run_search, hw]

end FastSearch
